import Mathlib

/-!
Shallow embedding of the dataset subsystem of
`deepext_with_lightning/dataset/classification.py`.

A Python `OrderedDict[str, int]` (and `Dict[str, int]`) is modelled as an
association list `List (String × α)`: iteration order is list order,
`d[k] = v` updates a present key in place and appends an absent key, and
`d[k]` returns the value of the (unique, by the catalog invariant) entry
whose key is `k`.  Image loading and transforms are outside the sampling
logic and are not modelled: a dataset element is the `(filename, label)`
pair the code resolves before touching the filesystem.  Randomness is
modelled by passing the random draws explicitly: a uniform rational
`u ∈ [0, 1)` for `np.random.choice(range(n), p=...)` (inverse transform
on the cumulative distribution) and a uniform index `k` for
`np.random.choice(filenames)`.
-/

/-- Python dictionary lookup `d[k]` on an association list: the value of
the first entry with key `k` (unique when keys are distinct). -/
def dictGet {α : Type} (d : List (String × α)) (k : String) : Option α :=
  (d.find? (fun kv => kv.1 == k)).map (fun kv => kv.2)

/-- Python `OrderedDict` assignment `d[k] = v`: overwrite the value in
place when `k` is present, otherwise append `(k, v)` at the end. -/
def odInsert (d : List (String × Nat)) (k : String) (v : Nat) : List (String × Nat) :=
  if d.any (fun kv => kv.1 == k) then
    d.map (fun kv => if kv.1 == k then (k, v) else kv)
  else d ++ [(k, v)]

/-- Python `pathlib.Path(s).name`: the final nonempty path component. -/
def pathName (s : String) : String :=
  (((s.splitOn ("/")).filter (fun c => c ≠ (""))).getLast?).getD ("")

/-- Python `str.isdigit` restricted to ASCII digit strings, over the
string's character list. -/
def str_isdigit (s : String) : Bool :=
  s.data.length != 0 && s.data.all Char.isDigit

/-- Python `int(s)` on a digit string, over the string's character list. -/
def digitsToNat (s : String) : Nat :=
  s.data.foldl (fun n c => n * 10 + (c.toNat - 48)) 0

/-- One iteration of the row loop of
`CSVAnnotationDataset._create_filename_label_dict`: a row is the pair
`(row[0], row[1])` of the CSV record.  An integer label token is stored
directly; a non-integer token without a label dictionary raises
(`Except.error`); a non-integer token absent from the supplied label
dictionary is skipped with a warning. -/
def processRow (label_dict : Option (List (String × Nat)))
    (acc : List (String × Nat)) (row : String × String) :
    Except String (List (String × Nat)) :=
  let filename := pathName row.1
  let label := row.2
  if ¬ str_isdigit label then
    match label_dict with
    | none => Except.error ("Required dict transform label name to class number.")
    | some d =>
      match dictGet d label with
      | none => Except.ok acc
      | some label_num => Except.ok (odInsert acc filename label_num)
  else
    Except.ok (odInsert acc filename (digitsToNat label))

/-- The row loop of `_create_filename_label_dict`, threading the
`OrderedDict` accumulator through `processRow`. -/
def createLoop (label_dict : Option (List (String × Nat))) :
    List (String × String) → List (String × Nat) →
    Except String (List (String × Nat))
  | [], acc => Except.ok acc
  | row :: rest, acc =>
    match processRow label_dict acc row with
    | Except.error e => Except.error e
    | Except.ok acc2 => createLoop label_dict rest acc2

/-- `CSVAnnotationDataset._create_filename_label_dict`, with the CSV file
given as its list of two-column rows. -/
def _create_filename_label_dict (rows : List (String × String))
    (label_dict : Option (List (String × Nat))) :
    Except String (List (String × Nat)) :=
  createLoop label_dict rows []

/-- `CSVAnnotationDataset.labels_distribution`: a zero array of size
`n_classes`, incremented at each entry's label.  (Labels at or beyond
`n_classes` raise an `IndexError` in the source; `List.set` drops them,
so statements about this function assume all labels are in range.) -/
def labels_distribution (catalog : List (String × Nat)) (n_classes : Nat) : List Nat :=
  catalog.foldl (fun result fl => result.set fl.2 (result.getD fl.2 0 + 1))
    (List.replicate n_classes 0)

/-- `CSVAnnotationDataset.split_dataset`: keep the keys whose position in
iteration order is contained in `indices`, in order, and rebuild the
mapping by dictionary lookup.  (The lookup of a kept key always
succeeds, so the `filterMap` drops nothing.) -/
def split_dataset (catalog : List (String × Nat)) (indices : List Nat) :
    List (String × Nat) :=
  ((catalog.map (fun fl => fl.1)).enum.filter (fun ik => indices.contains ik.1)).filterMap
    (fun ik => (dictGet catalog ik.2).map (fun v => (ik.2, v)))

/-- The per-entry replication lists of
`CSVAnnotationDatasetWithOverSampling.__init__`:
`[filename] * over_sampling_rate[label]` for each catalog entry, `none`
when some label is out of range of the rate list (Python `IndexError`). -/
def overSampleChunks (catalog : List (String × Nat)) (over_sampling_rate : List Nat) :
    Option (List (List String)) :=
  catalog.mapM (fun fl => (over_sampling_rate.get? fl.2).map
    (fun r => List.replicate r fl.1))

/-- The virtual index `_file_name_list` of
`CSVAnnotationDatasetWithOverSampling.__init__`: the replication lists
flattened by `reduce(lambda a, b: a + b, ...)`, which raises on an empty
list of chunks (`none`), i.e. on an empty catalog. -/
def overSampleBuild (catalog : List (String × Nat)) (over_sampling_rate : List Nat) :
    Option (List String) :=
  match overSampleChunks catalog over_sampling_rate with
  | none => none
  | some [] => none
  | some (c :: cs) => some (cs.foldl (fun a b => a ++ b) c)

/-- `CSVAnnotationDatasetWithOverSampling.labels_distribution`: scan the
virtual index, incrementing the slot of each filename's label looked up
in the annotation dictionary. -/
def over_labels_distribution (catalog : List (String × Nat))
    (file_name_list : List String) (n_classes : Nat) : List Nat :=
  file_name_list.foldl (fun result f =>
    match dictGet catalog f with
    | some l => result.set l (result.getD l 0 + 1)
    | none => result) (List.replicate n_classes 0)

/-- Python `round` on an exact rational: round half to even. -/
def pyRound (q : ℚ) : ℤ :=
  let f := Int.floor q
  let frac := q - f
  if frac < 1/2 then f
  else if 1/2 < frac then f + 1
  else if f % 2 = 0 then f else f + 1

/-- The state computed by `CSVAnnotationDatasetWithUnderSampling.__init__`. -/
structure UnderState where
  annotation_dict : List (String × Nat)
  n_classes : Nat
  filenames_by_classes : List (List String)
  sampled_label_dist : List ℤ
  data_len : ℤ
  norm_label_dist : List ℚ

/-- `CSVAnnotationDatasetWithUnderSampling.__init__`: group the catalog
filenames by class, round `rate[c] * label_dist[c]` per class (`zip`
truncates to the shorter list, as in Python), sum the rounded counts for
the reported length, and normalise `label_dist` by its sum.  (An entry
whose label is at or beyond `n_classes` raises an `IndexError` in the
source; `List.set` drops it, so statements assume labels in range.) -/
def underInit (annotation_dict : List (String × Nat)) (label_dist : List Nat)
    (under_sampling_rate : List ℚ) : UnderState :=
  let n := under_sampling_rate.length
  let byClasses := annotation_dict.foldl
    (fun acc fl => acc.set fl.2 (acc.getD fl.2 [] ++ [fl.1]))
    (List.replicate n ([] : List String))
  let sampled := (under_sampling_rate.zip label_dist).map
    (fun xy => pyRound (xy.1 * (xy.2 : ℚ)))
  { annotation_dict := annotation_dict
    n_classes := n
    filenames_by_classes := byClasses
    sampled_label_dist := sampled
    data_len := sampled.sum
    norm_label_dist := label_dist.map
      (fun x : Nat => (x : ℚ) / ((label_dist.sum : ℚ))) }

/-- `CSVAnnotationDataset.apply_under_sampling`: build the under-sampling
view from the base catalog, passing `labels_distribution(len(rate))`. -/
def apply_under_sampling (catalog : List (String × Nat))
    (under_sampling_rate : List ℚ) : UnderState :=
  underInit catalog (labels_distribution catalog under_sampling_rate.length)
    under_sampling_rate

/-- `CSVAnnotationDatasetWithUnderSampling.labels_distribution`: return
the precomputed sampled distribution. -/
def under_labels_distribution (st : UnderState) : List ℤ :=
  st.sampled_label_dist

/-- Inverse-transform sampling: walk the probability list, returning the
first index whose cumulative probability exceeds the uniform draw. -/
def chooseWeightedAux : List ℚ → ℚ → Nat → Nat
  | [], _, i => i
  | p :: ps, u, i => if u < p then i else chooseWeightedAux ps (u - p) (i + 1)

/-- `np.random.choice(range(n), p=probs)` at the uniform draw `u ∈ [0, 1)`:
inverse transform of the cumulative distribution. -/
def chooseWeighted (probs : List ℚ) (u : ℚ) : Nat :=
  chooseWeightedAux probs u 0

/-- `CSVAnnotationDatasetWithUnderSampling.__getitem__` at explicit random
draws: `u` is the uniform variate behind the weighted class choice and
`k` the uniform index behind the filename choice; `idx` is the method's
index argument.  Returns the `(filename, label)` pair the method
resolves (label re-looked-up in the annotation dictionary) before
loading the image, `none` where the source would raise. -/
def under_getitem (st : UnderState) (idx : Nat) (u : ℚ) (k : Nat) :
    Option (String × Nat) :=
  let label := chooseWeighted st.norm_label_dist u
  match st.filenames_by_classes[label]? with
  | none => none
  | some filenames =>
    match filenames[k]? with
    | none => none
    | some filename =>
      match dictGet st.annotation_dict filename with
      | none => none
      | some l => some (filename, l)

/-- First-occurrence deduplication, preserving order of first insertion
(the spec's description of `OrderedDict` key order). -/
def firstDedup (l : List String) : List String :=
  l.foldl (fun acc x => if acc.contains x then acc else acc ++ [x]) []

/-- The value of the last record with key `k` (the spec's last-write-wins
description). -/
def lastValue (rows : List (String × Nat)) (k : String) : Option Nat :=
  (rows.reverse.find? (fun kv => kv.1 == k)).map (fun kv => kv.2)

/-- The spec's description of parsing a well-formed all-integer label
file: keys in first-occurrence order, each carrying the label of its
last record. -/
def specCatalogOfRows (rows : List (String × String)) : List (String × Nat) :=
  let processed := rows.map (fun r => (pathName r.1, digitsToNat r.2))
  (firstDedup (processed.map (fun kv => kv.1))).map
    (fun k => (k, (lastValue processed k).getD 0))

/-- The key list (iteration order) of an ordered mapping. -/
def odKeys (d : List (String × Nat)) : List String :=
  d.map (fun kv => kv.1)

/-- Folding a list of `(key, value)` pairs into an ordered mapping by
repeated `OrderedDict` assignment. -/
def odFold (acc : List (String × Nat)) (prs : List (String × Nat)) :
    List (String × Nat) :=
  prs.foldl (fun a kv => odInsert a kv.1 kv.2) acc

/-- Cumulative sum of the first `k` entries of a probability list. -/
def partialSum (l : List ℚ) (k : Nat) : ℚ :=
  (l.take k).sum

/-- The class drawn by the under-sampling `__getitem__` at uniform draw
`u`. -/
def drawnClass (st : UnderState) (u : ℚ) : Nat :=
  chooseWeighted st.norm_label_dist u

/-- The catalog filenames labelled `c`, in catalog order. -/
def classFilenames (catalog : List (String × Nat)) (c : Nat) : List String :=
  (catalog.filter (fun fl => fl.2 == c)).map (fun fl => fl.1)

/-- The spec's concrete three-entry catalog. -/
def sampleCatalog : List (String × Nat) :=
  [(("a.jpg"), 0), (("b.jpg"), 1), (("c.jpg"), 0)]

/-! ## Lemmas about the ordered-mapping operations -/

lemma beq_swap (a b : String) : (a == b) = (b == a) := by
  by_cases h : a = b
  · subst h; rfl
  · rw [beq_eq_false_iff_ne.mpr h, beq_eq_false_iff_ne.mpr (Ne.symm h)]

lemma dictGet_nil (k : String) : dictGet ([] : List (String × Nat)) k = none := rfl

lemma dictGet_cons (kv : String × Nat) (d : List (String × Nat)) (k : String) :
    dictGet (kv :: d) k = if kv.1 == k then some kv.2 else dictGet d k := by
  cases h : (kv.1 == k) with
  | true => simp [dictGet, List.find?_cons_of_pos, h]
  | false => simp [dictGet, List.find?_cons_of_neg, h]

lemma any_keys_eq_contains (d : List (String × Nat)) (k : String) :
    d.any (fun kv => kv.1 == k) = (odKeys d).contains k := by
  induction d with
  | nil => rfl
  | cons kv rest ih =>
      simp only [List.any_cons, odKeys, List.map_cons, List.contains_cons] at ih ⊢
      rw [beq_swap, ih]

lemma dictGet_append_single_self (d : List (String × Nat)) (k : String) (v : Nat)
    (h : d.any (fun kv => kv.1 == k) = false) :
    dictGet (d ++ [(k, v)]) k = some v := by
  induction d with
  | nil => simp [dictGet_cons]
  | cons kv rest ih =>
      simp only [List.any_cons, Bool.or_eq_false_iff] at h
      rw [List.cons_append, dictGet_cons, h.1, if_neg (by simp)]
      exact ih h.2

lemma dictGet_append_single_ne (d : List (String × Nat)) (k k2 : String) (v : Nat)
    (h : k2 ≠ k) :
    dictGet (d ++ [(k, v)]) k2 = dictGet d k2 := by
  induction d with
  | nil =>
      rw [List.nil_append, dictGet_cons, dictGet_nil,
        if_neg (by simp [beq_eq_false_iff_ne.mpr (Ne.symm h)])]
  | cons kv rest ih =>
      rw [List.cons_append, dictGet_cons, dictGet_cons, ih]

lemma dictGet_map_overwrite_self (d : List (String × Nat)) (k : String) (v : Nat)
    (h : d.any (fun kv => kv.1 == k) = true) :
    dictGet (d.map (fun kv => if kv.1 == k then (k, v) else kv)) k = some v := by
  induction d with
  | nil => simp at h
  | cons kv rest ih =>
      simp only [List.any_cons, Bool.or_eq_true] at h
      rw [List.map_cons]
      by_cases hk : (kv.1 == k) = true
      · rw [if_pos hk, dictGet_cons, if_pos (by simp)]
      · rw [if_neg hk, dictGet_cons, if_neg hk]
        exact ih (h.resolve_left hk)

lemma dictGet_map_overwrite_ne (d : List (String × Nat)) (k k2 : String) (v : Nat)
    (h : k2 ≠ k) :
    dictGet (d.map (fun kv => if kv.1 == k then (k, v) else kv)) k2 = dictGet d k2 := by
  induction d with
  | nil => rfl
  | cons kv rest ih =>
      rw [List.map_cons]
      by_cases hk : (kv.1 == k) = true
      · rw [if_pos hk, dictGet_cons, dictGet_cons,
          if_neg (by simp [beq_eq_false_iff_ne.mpr (Ne.symm h)]),
          if_neg (by
            have : kv.1 = k := by simpa using hk
            simp [this, beq_eq_false_iff_ne.mpr (Ne.symm h)]), ih]
      · rw [if_neg hk, dictGet_cons, dictGet_cons, ih]

lemma dictGet_odInsert_self (d : List (String × Nat)) (k : String) (v : Nat) :
    dictGet (odInsert d k v) k = some v := by
  unfold odInsert
  cases h : d.any (fun kv => kv.1 == k) with
  | true => rw [if_pos (by simp [h])]; exact dictGet_map_overwrite_self d k v h
  | false => rw [if_neg (by simp [h])]; exact dictGet_append_single_self d k v h

lemma dictGet_odInsert_ne (d : List (String × Nat)) (k k2 : String) (v : Nat)
    (h : k2 ≠ k) :
    dictGet (odInsert d k v) k2 = dictGet d k2 := by
  unfold odInsert
  cases hc : d.any (fun kv => kv.1 == k) with
  | true => rw [if_pos (by simp [hc])]; exact dictGet_map_overwrite_ne d k k2 v h
  | false => rw [if_neg (by simp [hc])]; exact dictGet_append_single_ne d k k2 v h

lemma odKeys_map_overwrite (d : List (String × Nat)) (k : String) (v : Nat) :
    odKeys (d.map (fun kv => if kv.1 == k then (k, v) else kv)) = odKeys d := by
  induction d with
  | nil => rfl
  | cons kv rest ih =>
      have ihm : (rest.map (fun kv => if kv.1 == k then (k, v) else kv)).map
            (fun kv => kv.1) = rest.map (fun kv => kv.1) := by
        simpa [odKeys] using ih
      rw [List.map_cons]
      by_cases hk : (kv.1 == k) = true
      · have hkk : kv.1 = k := by simpa using hk
        rw [if_pos hk]
        simp only [odKeys, List.map_cons]
        rw [ihm, hkk]
      · rw [if_neg hk]
        simp only [odKeys, List.map_cons]
        rw [ihm]

lemma odKeys_odInsert (d : List (String × Nat)) (k : String) (v : Nat) :
    odKeys (odInsert d k v)
      = if (odKeys d).contains k then odKeys d else odKeys d ++ [k] := by
  unfold odInsert
  cases h : d.any (fun kv => kv.1 == k) with
  | true =>
      rw [if_pos (by simp [h]), odKeys_map_overwrite,
        if_pos (by rw [← any_keys_eq_contains]; simp [h])]
  | false =>
      rw [if_neg (by simp [h]), if_neg (by rw [← any_keys_eq_contains]; simp [h])]
      simp [odKeys]

lemma nodup_odKeys_odInsert (d : List (String × Nat)) (k : String) (v : Nat)
    (h : (odKeys d).Nodup) : (odKeys (odInsert d k v)).Nodup := by
  rw [odKeys_odInsert]
  by_cases hc : ((odKeys d).contains k) = true
  · rw [if_pos hc]; exact h
  · rw [if_neg hc]
    have hk : k ∉ odKeys d := by
      intro hm
      apply hc
      rw [← any_keys_eq_contains, List.any_eq_true]
      simp only [odKeys, List.mem_map] at hm
      rcases hm with ⟨kv, hkv, hfst⟩
      exact ⟨kv, hkv, by simp [hfst]⟩
    simp [List.nodup_append, h, hk]

lemma odFold_nil (acc : List (String × Nat)) : odFold acc [] = acc := rfl

lemma odFold_cons (acc : List (String × Nat)) (kv : String × Nat)
    (prs : List (String × Nat)) :
    odFold acc (kv :: prs) = odFold (odInsert acc kv.1 kv.2) prs := rfl

lemma lastValue_nil (k : String) : lastValue [] k = none := rfl

lemma lastValue_cons (kv : String × Nat) (prs : List (String × Nat)) (k : String) :
    lastValue (kv :: prs) k
      = Option.or (lastValue prs k) (if kv.1 == k then some kv.2 else none) := by
  unfold lastValue
  rw [List.reverse_cons, List.find?_append, Option.map_or']
  cases hk : (kv.1 == k) with
  | true => simp [List.find?_cons, hk]
  | false => simp [List.find?_cons, hk]

lemma dictGet_odInsert_or (acc : List (String × Nat)) (kv : String × Nat) (k : String) :
    dictGet (odInsert acc kv.1 kv.2) k
      = Option.or (if kv.1 == k then some kv.2 else none) (dictGet acc k) := by
  cases hk : (kv.1 == k) with
  | true =>
      have hkk : kv.1 = k := by simpa using hk
      rw [← hkk, dictGet_odInsert_self]
      simp
  | false =>
      have hne : k ≠ kv.1 := by
        intro he; rw [he] at hk; simp at hk
      rw [dictGet_odInsert_ne _ _ _ _ hne]
      simp

lemma dictGet_odFold (prs : List (String × Nat)) :
    ∀ (acc : List (String × Nat)) (k : String),
      dictGet (odFold acc prs) k = Option.or (lastValue prs k) (dictGet acc k) := by
  induction prs with
  | nil => intro acc k; rw [odFold_nil, lastValue_nil, Option.none_or]
  | cons kv rest ih =>
      intro acc k
      rw [odFold_cons, ih, lastValue_cons, Option.or_assoc, dictGet_odInsert_or]

lemma odKeys_odFold (prs : List (String × Nat)) :
    ∀ (acc : List (String × Nat)),
      odKeys (odFold acc prs)
        = prs.foldl (fun ks kv => if ks.contains kv.1 then ks else ks ++ [kv.1])
            (odKeys acc) := by
  induction prs with
  | nil => intro acc; rfl
  | cons kv rest ih =>
      intro acc
      rw [odFold_cons, ih, List.foldl_cons, odKeys_odInsert]

lemma nodup_odKeys_odFold (prs : List (String × Nat)) :
    ∀ (acc : List (String × Nat)), (odKeys acc).Nodup →
      (odKeys (odFold acc prs)).Nodup := by
  induction prs with
  | nil => intro acc h; exact h
  | cons kv rest ih =>
      intro acc h
      rw [odFold_cons]
      exact ih _ (nodup_odKeys_odInsert _ _ _ h)

lemma eq_map_of_nodup (d : List (String × Nat)) (h : (odKeys d).Nodup) :
    d = (odKeys d).map (fun k => (k, (dictGet d k).getD 0)) := by
  induction d with
  | nil => rfl
  | cons kv rest ih =>
      simp only [odKeys, List.map_cons] at h ⊢
      rcases List.nodup_cons.mp h with ⟨hnotin, hrest⟩
      have hhead : dictGet (kv :: rest) kv.1 = some kv.2 := by
        rw [dictGet_cons, if_pos (by simp)]
      rw [hhead]
      refine List.cons_eq_cons.mpr ⟨rfl, ?_⟩
      have htail : (rest.map (fun kv => kv.1)).map
            (fun k => (k, (dictGet (kv :: rest) k).getD 0))
          = (rest.map (fun kv => kv.1)).map
            (fun k => (k, (dictGet rest k).getD 0)) := by
        refine List.map_congr_left ?_
        intro a ha
        have hne : kv.1 ≠ a := fun he => hnotin (he ▸ ha)
        rw [dictGet_cons, if_neg (by simp [beq_eq_false_iff_ne.mpr hne])]
      rw [htail]
      exact ih hrest

lemma createLoop_digit (rows : List (String × String))
    (hdig : ∀ r ∈ rows, str_isdigit r.2 = true) :
    ∀ (ld : Option (List (String × Nat))) (acc : List (String × Nat)),
      createLoop ld rows acc
        = Except.ok (odFold acc (rows.map (fun r => (pathName r.1, digitsToNat r.2)))) := by
  induction rows with
  | nil => intro ld acc; rfl
  | cons r rest ih =>
      intro ld acc
      have hr : str_isdigit r.2 = true := hdig r (List.mem_cons_self r rest)
      have hstep : processRow ld acc r
          = Except.ok (odInsert acc (pathName r.1) (digitsToNat r.2)) := by
        unfold processRow
        rw [if_neg (by simp [hr])]
      rw [createLoop, hstep]
      exact ih (fun a ha => hdig a (List.mem_cons_of_mem r ha)) ld _

lemma createLoop_none_error (rows : List (String × String)) :
    ∀ acc, (createLoop none rows acc).isOk = false
      ↔ ∃ r ∈ rows, str_isdigit r.2 = false := by
  induction rows with
  | nil => intro acc; simp [createLoop, Except.isOk, Except.toBool]
  | cons r rest ih =>
      intro acc
      cases hr : str_isdigit r.2 with
      | false =>
          have hstep : processRow none acc r
              = Except.error ("Required dict transform label name to class number.") := by
            unfold processRow
            rw [if_pos (by simp [hr])]
          rw [createLoop, hstep]
          exact iff_of_true rfl ⟨r, List.mem_cons_self r rest, hr⟩
      | true =>
          have hstep : processRow none acc r
              = Except.ok (odInsert acc (pathName r.1) (digitsToNat r.2)) := by
            unfold processRow
            rw [if_neg (by simp [hr])]
          rw [createLoop, hstep]
          rw [ih]
          constructor
          · rintro ⟨a, ha, hfa⟩
            exact ⟨a, List.mem_cons_of_mem r ha, hfa⟩
          · rintro ⟨a, ha, hfa⟩
            rcases List.mem_cons.mp ha with rfl | ha2
            · rw [hr] at hfa; cases hfa
            · exact ⟨a, ha2, hfa⟩

lemma processRow_some_ok (d : List (String × Nat)) (acc : List (String × Nat))
    (r : String × String) : ∃ acc2, processRow (some d) acc r = Except.ok acc2 := by
  unfold processRow
  by_cases hr : (str_isdigit r.2) = true
  · refine ⟨odInsert acc (pathName r.1) (digitsToNat r.2), ?_⟩
    rw [if_neg (by simp [hr])]
  · rw [if_pos (by simpa using hr)]
    cases h : dictGet d r.2 with
    | none => exact ⟨acc, by simp [h]⟩
    | some label_num =>
        exact ⟨odInsert acc (pathName r.1) label_num, by simp [h]⟩

lemma createLoop_some_ok (rows : List (String × String)) (d : List (String × Nat)) :
    ∀ acc, (createLoop (some d) rows acc).isOk = true := by
  induction rows with
  | nil => intro acc; rfl
  | cons r rest ih =>
      intro acc
      rcases processRow_some_ok d acc r with ⟨acc2, hstep⟩
      rw [createLoop, hstep]
      exact ih acc2

lemma createLoop_skip (d : List (String × Nat)) (bad : String × String)
    (hbad : str_isdigit bad.2 = false) (hmiss : dictGet d bad.2 = none) :
    ∀ (pre : List (String × String)) (post : List (String × String))
      (acc : List (String × Nat)),
      createLoop (some d) (pre ++ bad :: post) acc
        = createLoop (some d) (pre ++ post) acc := by
  intro pre
  induction pre with
  | nil =>
      intro post acc
      have hstep : processRow (some d) acc bad = Except.ok acc := by
        unfold processRow
        rw [if_pos (by simp [hbad])]
        dsimp only
        rw [hmiss]
      rw [List.nil_append, List.nil_append, createLoop, hstep]
  | cons p rest ih =>
      intro post acc
      rcases processRow_some_ok d acc p with ⟨acc2, hstep⟩
      rw [List.cons_append, List.cons_append, createLoop, createLoop, hstep]
      exact ih post acc2

lemma firstDedup_map_fst (prs : List (String × Nat)) :
    firstDedup (prs.map (fun kv => kv.1))
      = prs.foldl (fun ks kv => if ks.contains kv.1 then ks else ks ++ [kv.1]) [] := by
  rw [firstDedup, List.foldl_map]

/-! ## Claims about annotation parsing -/

/-- Claim C4: annotation parsing fails (with the configuration error) at
parse time if and only if some record's label token is not a
non-negative integer literal and no label-name lookup table was
supplied; with a supplied lookup table parsing never fails, and a
non-integer label token absent from the table is skipped (the record is
dropped and processing continues with the remaining records). -/
theorem parse_failure_characterization (rows : List (String × String))
    (d : List (String × Nat)) (pre post : List (String × String))
    (bad : String × String) :
    ((_create_filename_label_dict rows none).isOk = false
      ↔ ∃ r ∈ rows, str_isdigit r.2 = false)
    ∧ (_create_filename_label_dict rows (some d)).isOk = true
    ∧ (str_isdigit bad.2 = false → dictGet d bad.2 = none →
        _create_filename_label_dict (pre ++ bad :: post) (some d)
          = _create_filename_label_dict (pre ++ post) (some d)) := by
  refine ⟨createLoop_none_error rows [], createLoop_some_ok rows d [], ?_⟩
  intro hbad hmiss
  exact createLoop_skip d bad hbad hmiss pre post []

/-- Witness for C4: the record `("a.jpg", "dog")` has a non-integer label
absent from the supplied table `{cat: 1}`, and parsing behaves as if the
record were not there. -/
theorem parse_failure_characterization_witness :
    (str_isdigit ("dog") = false) ∧ (dictGet [(("cat"), 1)] ("dog") = none) ∧
    _create_filename_label_dict
        ([(("b.jpg"), ("0"))] ++ (("a.jpg"), ("dog")) :: []) (some [(("cat"), 1)])
      = _create_filename_label_dict ([(("b.jpg"), ("0"))] ++ []) (some [(("cat"), 1)]) :=
  ⟨by decide, by decide,
    (parse_failure_characterization [] [(("cat"), 1)] [(("b.jpg"), ("0"))] []
      (("a.jpg"), ("dog"))).2.2 (by decide) (by decide)⟩

/-- Claim C5: parsing a well-formed label file whose label tokens are all
integer literals succeeds and yields the catalog whose keys are the
record filenames in first-occurrence order, each carrying the label of
its last record (last write wins, first-insertion position kept), and
whose length is the number of distinct (post-overwrite) filenames. -/
theorem parse_all_integer_rows (rows : List (String × String))
    (ld : Option (List (String × Nat)))
    (hdig : ∀ r ∈ rows, str_isdigit r.2 = true) :
    _create_filename_label_dict rows ld = Except.ok (specCatalogOfRows rows)
    ∧ (specCatalogOfRows rows).length
        = (firstDedup (rows.map (fun r => pathName r.1))).length := by
  have hmain : odFold [] (rows.map (fun r => (pathName r.1, digitsToNat r.2)))
      = specCatalogOfRows rows := by
    set prs := rows.map (fun r => (pathName r.1, digitsToNat r.2)) with hprs
    have hnodup : (odKeys (odFold [] prs)).Nodup :=
      nodup_odKeys_odFold prs [] (by simp [odKeys])
    have hkeys : odKeys (odFold [] prs) = firstDedup (prs.map (fun kv => kv.1)) := by
      rw [odKeys_odFold, firstDedup_map_fst]
      rfl
    have hget : ∀ k, dictGet (odFold [] prs) k = lastValue prs k := by
      intro k
      rw [dictGet_odFold, dictGet_nil, Option.or_none]
    calc odFold [] prs
        = (odKeys (odFold [] prs)).map
            (fun k => (k, (dictGet (odFold [] prs) k).getD 0)) :=
          eq_map_of_nodup _ hnodup
      _ = (firstDedup (prs.map (fun kv => kv.1))).map
            (fun k => (k, (lastValue prs k).getD 0)) := by
          rw [hkeys]
          exact List.map_congr_left (fun a _ => by rw [hget a])
      _ = specCatalogOfRows rows := rfl
  constructor
  · rw [_create_filename_label_dict, createLoop_digit rows hdig ld [], hmain]
  · simp only [specCatalogOfRows, List.length_map, List.map_map]
    rfl

/-- Witness for C5: three records with integer labels, a duplicated
filename among them. -/
theorem parse_all_integer_rows_witness :
    (∀ r ∈ [(("a.jpg"), ("0")), (("a.jpg"), ("2")), (("b.jpg"), ("1"))],
        str_isdigit r.2 = true)
    ∧ _create_filename_label_dict
          [(("a.jpg"), ("0")), (("a.jpg"), ("2")), (("b.jpg"), ("1"))] none
        = Except.ok (specCatalogOfRows
            [(("a.jpg"), ("0")), (("a.jpg"), ("2")), (("b.jpg"), ("1"))]) :=
  ⟨by decide, (parse_all_integer_rows
      [(("a.jpg"), ("0")), (("a.jpg"), ("2")), (("b.jpg"), ("1"))] none (by decide)).1⟩

/-! ## Lemmas about splitting -/

lemma enumFrom_map_pair {α β : Type} (f : α → β) :
    ∀ (l : List α) (n : Nat),
      (l.map f).enumFrom n = (l.enumFrom n).map (fun ie => (ie.1, f ie.2)) := by
  intro l
  induction l with
  | nil => intro n; rfl
  | cons a as ih =>
      intro n
      rw [List.map_cons, List.enumFrom_cons, List.enumFrom_cons, List.map_cons, ih]

lemma enum_map_pair {α β : Type} (f : α → β) (l : List α) :
    (l.map f).enum = l.enum.map (fun ie => (ie.1, f ie.2)) :=
  enumFrom_map_pair f l 0

lemma filterMap_eq_map_of_some {α β : Type} (f : α → Option β) (g : α → β) :
    ∀ (l : List α), (∀ x ∈ l, f x = some (g x)) → l.filterMap f = l.map g := by
  intro l
  induction l with
  | nil => intro _; rfl
  | cons a as ih =>
      intro h
      rw [List.filterMap_cons, h a (List.mem_cons_self a as), List.map_cons,
        ih (fun x hx => h x (List.mem_cons_of_mem a hx))]

lemma length_filterMap_of_isSome {α β : Type} (f : α → Option β) :
    ∀ (l : List α), (∀ x ∈ l, (f x).isSome) → (l.filterMap f).length = l.length := by
  intro l
  induction l with
  | nil => intro _; rfl
  | cons a as ih =>
      intro h
      rcases Option.isSome_iff_exists.mp (h a (List.mem_cons_self a as)) with ⟨b, hb⟩
      rw [List.filterMap_cons, hb, List.length_cons,
        ih (fun x hx => h x (List.mem_cons_of_mem a hx)), List.length_cons]

lemma dictGet_of_nodup (catalog : List (String × Nat))
    (h : (catalog.map (fun fl => fl.1)).Nodup) :
    ∀ fl ∈ catalog, dictGet catalog fl.1 = some fl.2 := by
  induction catalog with
  | nil => intro fl hfl; cases hfl
  | cons kv rest ih =>
      intro fl hfl
      rw [List.map_cons, List.nodup_cons] at h
      rcases List.mem_cons.mp hfl with rfl | hm
      · rw [dictGet_cons, if_pos (by simp)]
      · have hne : kv.1 ≠ fl.1 := by
          intro he
          exact h.1 (he ▸ List.mem_map_of_mem (fun fl => fl.1) hm)
        rw [dictGet_cons, if_neg (by simp [hne]), ih h.2 fl hm]

lemma dictGet_isSome_of_mem_keys (catalog : List (String × Nat)) (k : String)
    (h : k ∈ catalog.map (fun fl => fl.1)) : (dictGet catalog k).isSome := by
  rcases List.mem_map.mp h with ⟨fl, hfl, hk⟩
  have hfind : (catalog.find? (fun kv => kv.1 == k)).isSome := by
    rw [List.find?_isSome]
    exact ⟨fl, hfl, by simp [hk]⟩
  rcases Option.isSome_iff_exists.mp hfind with ⟨kv0, hkv0⟩
  rw [dictGet, hkv0]
  rfl

lemma length_enum_filter {α : Type} (l : List α) (p : Nat → Bool) :
    (l.enum.filter (fun ie => p ie.1)).length
      = ((List.range l.length).filter p).length := by
  have h1 : (l.enum.filter (fun ie => p ie.1)).map Prod.fst
      = (l.enum.map Prod.fst).filter p := by
    rw [List.filter_map]
    rfl
  have h2 : l.enum.map Prod.fst = List.range l.length := by
    rw [List.enum_eq_enumFrom, List.enumFrom_map_fst, List.range_eq_range']
  calc (l.enum.filter (fun ie => p ie.1)).length
      = ((l.enum.filter (fun ie => p ie.1)).map Prod.fst).length :=
        (List.length_map _ _).symm
    _ = ((l.enum.map Prod.fst).filter p).length := by rw [h1]
    _ = ((List.range l.length).filter p).length := by rw [h2]

lemma length_range_filter_contains (K : Nat) (indices : List Nat)
    (hnd : indices.Nodup) (hlt : ∀ i ∈ indices, i < K) :
    ((List.range K).filter (fun i => indices.contains i)).length = indices.length := by
  have hsub : ((List.range K).filter (fun i => indices.contains i)).Nodup :=
    (List.nodup_range K).filter _
  have hmem : ∀ i, i ∈ (List.range K).filter (fun i => indices.contains i)
      ↔ i ∈ indices := by
    intro i
    simp only [List.mem_filter, List.mem_range, List.contains, List.elem_eq_mem,
      decide_eq_true_eq]
    exact ⟨fun h => h.2, fun h => ⟨hlt i h, h⟩⟩
  have hfin : ((List.range K).filter (fun i => indices.contains i)).toFinset
      = indices.toFinset := by
    ext i
    simp only [List.mem_toFinset]
    exact hmem i
  calc ((List.range K).filter (fun i => indices.contains i)).length
      = ((List.range K).filter (fun i => indices.contains i)).toFinset.card :=
        (List.toFinset_card_of_nodup hsub).symm
    _ = indices.toFinset.card := by rw [hfin]
    _ = indices.length := List.toFinset_card_of_nodup hnd

/-! ## Claims about splitting -/

/-- Claim C6: on a catalog with distinct keys, splitting by a set of
distinct valid positions returns exactly the catalog entries at those
positions in their original relative order, and the result's length is
the number of positions given.  (The embedding is purely functional, so
the original catalog is unchanged by construction.) -/
theorem split_subset_positions (catalog : List (String × Nat)) (indices : List Nat)
    (hkeys : (catalog.map (fun fl => fl.1)).Nodup)
    (hnd : indices.Nodup) (hlt : ∀ i ∈ indices, i < catalog.length) :
    split_dataset catalog indices
      = (catalog.enum.filter (fun ie => indices.contains ie.1)).map (fun ie => ie.2)
    ∧ (split_dataset catalog indices).length = indices.length := by
  have heq : split_dataset catalog indices
      = (catalog.enum.filter (fun ie => indices.contains ie.1)).map
          (fun ie => ie.2) := by
    rw [split_dataset, enum_map_pair (fun fl => fl.1) catalog, List.filter_map,
      List.filterMap_map]
    apply filterMap_eq_map_of_some
    intro ie hie
    have hmem_enum : ie.2 ∈ catalog := by
      have hmem := (List.mem_filter.mp hie).1
      rw [List.mem_enum_iff_get?] at hmem
      exact List.get?_mem hmem
    have hdg := dictGet_of_nodup catalog hkeys ie.2 hmem_enum
    simp [hdg]
  refine ⟨heq, ?_⟩
  rw [heq, List.length_map,
    length_enum_filter catalog (fun i => indices.contains i),
    length_range_filter_contains catalog.length indices hnd hlt]

/-- Witness for C6: splitting the three-entry catalog at positions 0 and 2. -/
theorem split_subset_positions_witness :
    ([(("a.jpg"), 0), (("b.jpg"), 1), (("c.jpg"), 0)].map (fun fl => fl.1)).Nodup
    ∧ ([0, 2] : List Nat).Nodup
    ∧ (∀ i ∈ ([0, 2] : List Nat),
        i < [(("a.jpg"), 0), (("b.jpg"), 1), (("c.jpg"), 0)].length)
    ∧ (split_dataset [(("a.jpg"), 0), (("b.jpg"), 1), (("c.jpg"), 0)] [0, 2]
        = ([(("a.jpg"), 0), (("b.jpg"), 1), (("c.jpg"), 0)].enum.filter
            (fun ie => ([0, 2] : List Nat).contains ie.1)).map (fun ie => ie.2)
      ∧ (split_dataset [(("a.jpg"), 0), (("b.jpg"), 1), (("c.jpg"), 0)] [0, 2]).length
          = ([0, 2] : List Nat).length) :=
  ⟨by decide, by decide, by decide,
    split_subset_positions [(("a.jpg"), 0), (("b.jpg"), 1), (("c.jpg"), 0)] [0, 2]
      (by decide) (by decide) (by decide)⟩

/-- Claim C10: splitting never fails on out-of-range or repeated index
values: the result's length equals the number of distinct in-range
positions (positions of the base catalog whose value occurs in the index
collection), and filtering the index collection to the valid range does
not change the result. -/
theorem split_ignores_invalid_positions (catalog : List (String × Nat))
    (indices : List Nat) :
    (split_dataset catalog indices).length
      = ((List.range catalog.length).filter (fun i => indices.contains i)).length
    ∧ split_dataset catalog indices
        = split_dataset catalog (indices.filter (fun i => i < catalog.length)) := by
  constructor
  · rw [split_dataset]
    rw [length_filterMap_of_isSome _ _ ?hall]
    case hall =>
      intro ik hik
      have hmem := (List.mem_filter.mp hik).1
      rw [List.mem_enum_iff_get?] at hmem
      have hkey : ik.2 ∈ catalog.map (fun fl => fl.1) := List.get?_mem hmem
      rcases Option.isSome_iff_exists.mp
        (dictGet_isSome_of_mem_keys catalog ik.2 hkey) with ⟨v, hv⟩
      rw [hv]
      rfl
    rw [length_enum_filter (catalog.map (fun fl => fl.1))
      (fun i => indices.contains i), List.length_map]
  · rw [split_dataset, split_dataset]
    have hfilter : ((catalog.map (fun fl => fl.1)).enum.filter
          (fun ik => indices.contains ik.1))
        = ((catalog.map (fun fl => fl.1)).enum.filter
          (fun ik => (indices.filter (fun i => i < catalog.length)).contains ik.1)) := by
      apply List.filter_congr
      intro ik hik
      rw [List.mem_enum_iff_get?] at hik
      have hlt : ik.1 < catalog.length := by
        rcases List.get?_eq_some.mp hik with ⟨hbound, _⟩
        simpa using hbound
      have hiff : (ik.1 ∈ indices)
          ↔ (ik.1 ∈ indices.filter (fun i => decide (i < catalog.length))) := by
        simp [List.mem_filter, hlt]
      simp only [List.contains, List.elem_eq_mem]
      exact decide_eq_decide.mpr hiff
    rw [hfilter]

/-! ## Lemmas about the over-sampling build and distributions -/

lemma get?_eq_some_getD (l : List Nat) (i : Nat) (h : i < l.length) :
    l.get? i = some (l.getD i 0) := by
  rw [List.get?_eq_getElem?, List.getElem?_eq_getElem h, List.getD_eq_getElem?_getD,
    List.getElem?_eq_getElem h]
  rfl

lemma foldl_append_eq_flatten {α : Type} :
    ∀ (cs : List (List α)) (c : List α),
      cs.foldl (fun a b => a ++ b) c = c ++ cs.flatten := by
  intro cs
  induction cs with
  | nil => intro c; simp
  | cons d ds ih =>
      intro c
      rw [List.foldl_cons, ih, List.flatten_cons, List.append_assoc]

lemma overSampleChunks_eq_map (catalog : List (String × Nat)) (rate : List Nat)
    (hlab : ∀ fl ∈ catalog, fl.2 < rate.length) :
    overSampleChunks catalog rate
      = some (catalog.map (fun fl => List.replicate (rate.getD fl.2 0) fl.1)) := by
  induction catalog with
  | nil => rfl
  | cons fl rest ih =>
      have hrest := ih (fun x hx => hlab x (List.mem_cons_of_mem fl hx))
      have hf : (rate.get? fl.2).map (fun r => List.replicate r fl.1)
          = some (List.replicate (rate.getD fl.2 0) fl.1) := by
        rw [get?_eq_some_getD rate fl.2 (hlab fl (List.mem_cons_self fl rest))]
        rfl
      rw [overSampleChunks] at hrest ⊢
      rw [List.mapM_cons]
      simp only [hf, hrest, List.map_cons, Option.bind_eq_bind, Option.some_bind]
      rfl

lemma overSampleBuild_eq_flatten (catalog : List (String × Nat)) (rate : List Nat)
    (hne : catalog ≠ [])
    (hlab : ∀ fl ∈ catalog, fl.2 < rate.length) :
    overSampleBuild catalog rate
      = some ((catalog.map
          (fun fl => List.replicate (rate.getD fl.2 0) fl.1)).flatten) := by
  rw [overSampleBuild, overSampleChunks_eq_map catalog rate hlab]
  cases catalog with
  | nil => exact absurd rfl hne
  | cons fl rest =>
      rw [List.map_cons]
      dsimp only
      rw [foldl_append_eq_flatten, List.flatten_cons]

lemma getD_set_self {α : Type} (l : List α) (i : Nat) (x d : α) (h : i < l.length) :
    (l.set i x).getD i d = x := by
  rw [List.getD_eq_getElem?_getD, List.getElem?_set_self h]
  rfl

lemma getD_set_ne {α : Type} (l : List α) (i j : Nat) (x d : α) (h : i ≠ j) :
    (l.set i x).getD j d = l.getD j d := by
  rw [List.getD_eq_getElem?_getD, List.getElem?_set_ne h, List.getD_eq_getElem?_getD]

lemma foldl_incr_getElem? (labels : List Nat) :
    ∀ (init : List Nat) (c : Nat), c < init.length →
      (∀ l ∈ labels, l < init.length) →
      (labels.foldl (fun res l => res.set l (res.getD l 0 + 1)) init)[c]?
        = some (init.getD c 0 + labels.countP (fun l => l == c)) := by
  induction labels with
  | nil =>
      intro init c hc _
      simp [List.getElem?_eq_getElem hc, List.getD_eq_getElem?_getD]
  | cons l0 rest ih =>
      intro init c hc hl
      rw [List.foldl_cons]
      have hl0 : l0 < init.length := hl l0 (List.mem_cons_self l0 rest)
      have hlen : (init.set l0 (init.getD l0 0 + 1)).length = init.length :=
        List.length_set init l0 _
      have hrec := ih (init.set l0 (init.getD l0 0 + 1)) c (by rw [hlen]; exact hc)
        (fun l hm => by rw [hlen]; exact hl l (List.mem_cons_of_mem l0 hm))
      rw [hrec]
      by_cases h0 : (l0 == c) = true
      · have he : l0 = c := by simpa using h0
        subst he
        rw [getD_set_self init l0 _ 0 hl0, List.countP_cons, if_pos h0]
        simp only [Option.some.injEq]
        omega
      · have hne2 : l0 ≠ c := by simpa using h0
        rw [getD_set_ne init l0 c _ 0 hne2, List.countP_cons,
          if_neg (by simp [hne2])]
        simp

lemma foldl_entries_eq_labels (catalog : List (String × Nat)) :
    ∀ (init : List Nat),
      catalog.foldl (fun result fl => result.set fl.2 (result.getD fl.2 0 + 1)) init
        = (catalog.map (fun fl => fl.2)).foldl
            (fun res l => res.set l (res.getD l 0 + 1)) init := by
  induction catalog with
  | nil => intro _; rfl
  | cons fl rest ih =>
      intro init
      rw [List.foldl_cons, List.map_cons, List.foldl_cons, ih]

lemma labels_distribution_getElem? (catalog : List (String × Nat)) (n c : Nat)
    (hc : c < n) (hlab : ∀ fl ∈ catalog, fl.2 < n) :
    (labels_distribution catalog n)[c]?
      = some (catalog.countP (fun fl => fl.2 == c)) := by
  rw [labels_distribution, foldl_entries_eq_labels]
  have := foldl_incr_getElem? (catalog.map (fun fl => fl.2)) (List.replicate n 0) c
    (by simpa using hc)
    (by
      intro l hl
      rcases List.mem_map.mp hl with ⟨fl, hfl, rfl⟩
      simpa using hlab fl hfl)
  rw [this, List.countP_map]
  have hz : (List.replicate n 0).getD c 0 = 0 := by
    simp [List.getD_eq_getElem?_getD, List.getElem?_replicate, hc]
  rw [hz, Nat.zero_add]
  rfl

lemma over_labels_distribution_eq_foldl (catalog : List (String × Nat))
    (files : List String) :
    ∀ (init : List Nat),
      files.foldl (fun result f => match dictGet catalog f with
        | some l => result.set l (result.getD l 0 + 1)
        | none => result) init
      = (files.filterMap (dictGet catalog)).foldl
          (fun res l => res.set l (res.getD l 0 + 1)) init := by
  induction files with
  | nil => intro _; rfl
  | cons f rest ih =>
      intro init
      rw [List.foldl_cons, List.filterMap_cons]
      cases hf : dictGet catalog f with
      | none => rw [ih]
      | some l => rw [ih, List.foldl_cons]

lemma over_labels_distribution_getElem? (catalog : List (String × Nat))
    (files : List String) (n c : Nat) (hc : c < n)
    (hlab2 : ∀ l ∈ files.filterMap (dictGet catalog), l < n) :
    (over_labels_distribution catalog files n)[c]?
      = some ((files.filterMap (dictGet catalog)).countP (fun l => l == c)) := by
  rw [over_labels_distribution, over_labels_distribution_eq_foldl]
  have := foldl_incr_getElem? (files.filterMap (dictGet catalog))
    (List.replicate n 0) c (by simpa using hc) (by simpa using hlab2)
  rw [this]
  simp [List.getD_eq_getElem?_getD, List.getElem?_replicate, hc]

lemma filterMap_replicate_some {α β : Type} (g : α → Option β) (a : α) (b : β)
    (hg : g a = some b) :
    ∀ n, (List.replicate n a).filterMap g = List.replicate n b := by
  intro n
  induction n with
  | zero => rfl
  | succ m ih =>
      rw [List.replicate_succ, List.filterMap_cons, hg, ih, List.replicate_succ]

lemma filterMap_dictGet_flatten (catalog : List (String × Nat)) (rate : List Nat) :
    ∀ (entries : List (String × Nat)),
      (∀ fl ∈ entries, dictGet catalog fl.1 = some fl.2) →
      ((entries.map (fun fl => List.replicate (rate.getD fl.2 0) fl.1)).flatten).filterMap
          (dictGet catalog)
        = (entries.map (fun fl => List.replicate (rate.getD fl.2 0) fl.2)).flatten := by
  intro entries
  induction entries with
  | nil => intro _; rfl
  | cons fl rest ih =>
      intro h
      rw [List.map_cons, List.flatten_cons, List.filterMap_append,
        filterMap_replicate_some (dictGet catalog) fl.1 fl.2
          (h fl (List.mem_cons_self fl rest)) _,
        List.map_cons, List.flatten_cons,
        ih (fun x hx => h x (List.mem_cons_of_mem fl hx))]

lemma countP_flatten_replicate (rate : List Nat) (c : Nat) :
    ∀ (entries : List (String × Nat)),
      ((entries.map (fun fl => List.replicate (rate.getD fl.2 0) fl.2)).flatten).countP
          (fun l => l == c)
        = entries.countP (fun fl => fl.2 == c) * rate.getD c 0 := by
  intro entries
  induction entries with
  | nil => simp
  | cons fl rest ih =>
      rw [List.map_cons, List.flatten_cons, List.countP_append, ih,
        List.countP_replicate, List.countP_cons]
      by_cases hc : (fl.2 == c) = true
      · have he : fl.2 = c := by simpa using hc
        rw [if_pos hc, if_pos hc, he, Nat.add_mul, Nat.one_mul]
        exact Nat.add_comm _ _
      · rw [if_neg hc, if_neg hc]
        simp

/-! ## Claims about the over-sampling view -/

/-- Counterexample for C1 as stated over every catalog: on the empty
catalog, no virtual index of length 0 (the value of the claim's sum
formula) is built — construction fails, because the flatten step folds
an empty list of replication lists with no initial element. -/
theorem oversampling_build_empty_counterexample :
    ¬ ∃ files, overSampleBuild ([] : List (String × Nat)) [2, 1] = some files
      ∧ files.length
          = (([] : List (String × Nat)).map (fun fl => [2, 1].getD fl.2 0)).sum := by
  rintro ⟨files, hf, _⟩
  have hnone : overSampleBuild ([] : List (String × Nat)) [2, 1] = none := rfl
  rw [hnone] at hf
  cases hf

/-- Claim C1 (amended to non-empty catalogs): for every non-empty catalog
whose labels index the rate list, the virtual index is built by
appending, for each catalog entry in iteration order, its filename
`rate[label]` times, so the length is the sum over catalog entries of
`rate[label]`; on the spec's concrete catalog and rate `[2, 1]` the
virtual index is `[a.jpg, a.jpg, b.jpg, c.jpg, c.jpg]` of length 5. -/
theorem oversampling_build_nonempty (catalog : List (String × Nat))
    (rate : List Nat) (n : Nat) (hne : catalog ≠ []) (hrn : rate.length = n)
    (hlab : ∀ fl ∈ catalog, fl.2 < n) :
    overSampleBuild catalog rate
      = some ((catalog.map (fun fl => List.replicate (rate.getD fl.2 0) fl.1)).flatten)
    ∧ (∃ files, overSampleBuild catalog rate = some files
        ∧ files.length = (catalog.map (fun fl => rate.getD fl.2 0)).sum)
    ∧ overSampleBuild [(("a.jpg"), 0), (("b.jpg"), 1), (("c.jpg"), 0)] [2, 1]
        = some [("a.jpg"), ("a.jpg"), ("b.jpg"), ("c.jpg"), ("c.jpg")] := by
  have hlabr : ∀ fl ∈ catalog, fl.2 < rate.length := fun fl h => by
    rw [hrn]; exact hlab fl h
  have hbuild := overSampleBuild_eq_flatten catalog rate hne hlabr
  refine ⟨hbuild, ⟨_, hbuild, ?_⟩, by decide⟩
  rw [List.length_flatten, List.map_map]
  congr 1
  apply List.map_congr_left
  intro fl _
  simp

/-- Witness for C1 (amended): the spec's concrete catalog and rate. -/
theorem oversampling_build_nonempty_witness :
    ([(("a.jpg"), 0), (("b.jpg"), 1), (("c.jpg"), 0)] : List (String × Nat)) ≠ []
    ∧ ([2, 1] : List Nat).length = 2
    ∧ (∀ fl ∈ ([(("a.jpg"), 0), (("b.jpg"), 1), (("c.jpg"), 0)] : List (String × Nat)),
        fl.2 < 2)
    ∧ (∃ files, overSampleBuild [(("a.jpg"), 0), (("b.jpg"), 1), (("c.jpg"), 0)] [2, 1]
        = some files
        ∧ files.length
            = ([(("a.jpg"), 0), (("b.jpg"), 1), (("c.jpg"), 0)].map
                (fun fl => [2, 1].getD fl.2 0)).sum) :=
  ⟨by decide, by decide, by decide,
    (oversampling_build_nonempty [(("a.jpg"), 0), (("b.jpg"), 1), (("c.jpg"), 0)]
      [2, 1] 2 (by decide) (by decide) (by decide)).2.1⟩

/-- Claim C9: constructing the over-sampling view from an empty catalog
fails for every rate (the flatten step has no initial element), while
for every non-empty catalog with labels in range construction succeeds;
an all-zero rate on a non-empty catalog yields an empty virtual index,
but an empty catalog cannot yield one. -/
theorem oversampling_empty_catalog_fails (catalog : List (String × Nat))
    (rate : List Nat) (hne : catalog ≠ [])
    (hlab : ∀ fl ∈ catalog, fl.2 < rate.length) :
    (∀ r : List Nat, overSampleBuild [] r = none)
    ∧ (overSampleBuild catalog rate).isSome = true
    ∧ ((∀ fl ∈ catalog, rate.getD fl.2 0 = 0)
        → overSampleBuild catalog rate = some []) := by
  refine ⟨fun r => rfl, ?_, ?_⟩
  · rw [overSampleBuild_eq_flatten catalog rate hne hlab]
    rfl
  · intro hzero
    rw [overSampleBuild_eq_flatten catalog rate hne hlab]
    congr 1
    rw [List.flatten_eq_nil_iff]
    intro l hl
    rcases List.mem_map.mp hl with ⟨fl, hfl, rfl⟩
    rw [hzero fl hfl]
    rfl

/-- Witness for C9: a two-entry catalog with the all-zero rate. -/
theorem oversampling_empty_catalog_fails_witness :
    ([(("a.jpg"), 0), (("b.jpg"), 1)] : List (String × Nat)) ≠ []
    ∧ (∀ fl ∈ ([(("a.jpg"), 0), (("b.jpg"), 1)] : List (String × Nat)),
        fl.2 < ([0, 0] : List Nat).length)
    ∧ ((∀ r : List Nat, overSampleBuild [] r = none)
      ∧ (overSampleBuild [(("a.jpg"), 0), (("b.jpg"), 1)] [0, 0]).isSome = true
      ∧ ((∀ fl ∈ ([(("a.jpg"), 0), (("b.jpg"), 1)] : List (String × Nat)),
            ([0, 0] : List Nat).getD fl.2 0 = 0)
          → overSampleBuild [(("a.jpg"), 0), (("b.jpg"), 1)] [0, 0] = some [])) :=
  ⟨by decide, by decide,
    oversampling_empty_catalog_fails [(("a.jpg"), 0), (("b.jpg"), 1)] [0, 0]
      (by decide) (by decide)⟩

/-- Claim C7: for every over-sampling view over a catalog with distinct
keys and labels in `[0, n)`, the recomputed distribution at each class
`c < n` is exactly the base catalog's count of class `c` times `rate[c]`
— exact integer arithmetic, no rounding. -/
theorem oversampling_distribution_product (catalog : List (String × Nat))
    (rate : List Nat) (n : Nat) (files : List String)
    (hne : catalog ≠ [])
    (hkeys : (catalog.map (fun fl => fl.1)).Nodup)
    (hlab : ∀ fl ∈ catalog, fl.2 < n)
    (hrn : rate.length = n)
    (hfiles : overSampleBuild catalog rate = some files) :
    ∀ c, c < n →
      (over_labels_distribution catalog files n)[c]?
        = some ((labels_distribution catalog n).getD c 0 * rate.getD c 0) := by
  intro c hcn
  have hlabr : ∀ fl ∈ catalog, fl.2 < rate.length := fun fl h => by
    rw [hrn]; exact hlab fl h
  have hbuild := overSampleBuild_eq_flatten catalog rate hne hlabr
  rw [hfiles] at hbuild
  have hfe := Option.some.inj hbuild
  subst hfe
  have hfm := filterMap_dictGet_flatten catalog rate catalog
    (dictGet_of_nodup catalog hkeys)
  have hlab2 : ∀ l ∈ ((catalog.map
        (fun fl => List.replicate (rate.getD fl.2 0) fl.1)).flatten).filterMap
      (dictGet catalog), l < n := by
    rw [hfm]
    intro l hl
    rcases List.mem_flatten.mp hl with ⟨chunk, hchunk, hlc⟩
    rcases List.mem_map.mp hchunk with ⟨fl, hfl, rfl⟩
    have he := List.eq_of_mem_replicate hlc
    exact he ▸ hlab fl hfl
  rw [over_labels_distribution_getElem? catalog _ n c hcn hlab2, hfm,
    countP_flatten_replicate rate c catalog]
  have hbase : (labels_distribution catalog n).getD c 0
      = catalog.countP (fun fl => fl.2 == c) := by
    rw [List.getD_eq_getElem?_getD,
      labels_distribution_getElem? catalog n c hcn hlab]
    rfl
  rw [hbase]

/-- Witness for C7: the spec's concrete catalog with rate `[2, 1]` gives
distribution `[4, 1]`. -/
theorem oversampling_distribution_product_witness :
    ([(("a.jpg"), 0), (("b.jpg"), 1), (("c.jpg"), 0)] : List (String × Nat)) ≠ []
    ∧ ([(("a.jpg"), 0), (("b.jpg"), 1), (("c.jpg"), 0)].map (fun fl => fl.1)).Nodup
    ∧ (∀ fl ∈ ([(("a.jpg"), 0), (("b.jpg"), 1), (("c.jpg"), 0)] : List (String × Nat)),
        fl.2 < 2)
    ∧ ([2, 1] : List Nat).length = 2
    ∧ overSampleBuild [(("a.jpg"), 0), (("b.jpg"), 1), (("c.jpg"), 0)] [2, 1]
        = some [("a.jpg"), ("a.jpg"), ("b.jpg"), ("c.jpg"), ("c.jpg")]
    ∧ (∀ c, c < 2 →
        (over_labels_distribution [(("a.jpg"), 0), (("b.jpg"), 1), (("c.jpg"), 0)]
          [("a.jpg"), ("a.jpg"), ("b.jpg"), ("c.jpg"), ("c.jpg")] 2)[c]?
          = some ((labels_distribution
              [(("a.jpg"), 0), (("b.jpg"), 1), (("c.jpg"), 0)] 2).getD c 0
              * ([2, 1] : List Nat).getD c 0)) :=
  ⟨by decide, by decide, by decide, by decide, by decide,
    oversampling_distribution_product
      [(("a.jpg"), 0), (("b.jpg"), 1), (("c.jpg"), 0)] [2, 1] 2
      [("a.jpg"), ("a.jpg"), ("b.jpg"), ("c.jpg"), ("c.jpg")]
      (by decide) (by decide) (by decide) (by decide) (by decide)⟩

/-! ## Lemmas about the under-sampling view -/

lemma zip_map_pyRound_sum (a : List ℚ) :
    ∀ (b : List Nat), a.length = b.length →
      ((a.zip b).map (fun xy => pyRound (xy.1 * (xy.2 : ℚ)))).sum
        = ((List.range a.length).map
            (fun c => pyRound (a.getD c 0 * (b.getD c 0 : ℚ)))).sum := by
  induction a with
  | nil => intro b _; rfl
  | cons x xs ih =>
      intro b h
      cases b with
      | nil => simp at h
      | cons y ys =>
          have htail := ih ys (by simpa using h)
          rw [List.zip_cons_cons, List.map_cons, List.sum_cons, htail,
            List.length_cons, List.range_succ_eq_map, List.map_cons, List.sum_cons,
            List.map_map]
          rfl

lemma partialSum_nonneg (l : List ℚ) (hl : ∀ p ∈ l, 0 ≤ p) (k : Nat) :
    0 ≤ partialSum l k := by
  rw [partialSum]
  apply List.sum_nonneg
  intro p hp
  exact hl p (List.take_subset k l hp)

lemma partialSum_succ (l : List ℚ) (i : Nat) (h : i < l.length) :
    partialSum l (i + 1) = partialSum l i + l.getD i 0 := by
  rw [partialSum, partialSum, List.sum_take_succ l i h]
  congr 1
  rw [List.getD_eq_getElem?_getD, List.getElem?_eq_getElem h]
  rfl

lemma chooseWeightedAux_succ (ps : List ℚ) :
    ∀ (v : ℚ) (i : Nat),
      chooseWeightedAux ps v (i + 1) = chooseWeightedAux ps v i + 1 := by
  induction ps with
  | nil => intro v i; rfl
  | cons p ps ih =>
      intro v i
      simp only [chooseWeightedAux]
      by_cases h : v < p
      · rw [if_pos h, if_pos h]
      · rw [if_neg h, if_neg h, ih]

lemma chooseWeighted_cons (p : ℚ) (ps : List ℚ) (u : ℚ) :
    chooseWeighted (p :: ps) u
      = if u < p then 0 else chooseWeighted ps (u - p) + 1 := by
  rw [chooseWeighted, chooseWeighted]
  simp only [chooseWeightedAux]
  by_cases h : u < p
  · rw [if_pos h, if_pos h]
  · rw [if_neg h, if_neg h, chooseWeightedAux_succ]

lemma chooseWeighted_eq_iff (probs : List ℚ) :
    ∀ (u : ℚ) (c : Nat), (∀ p ∈ probs, 0 ≤ p) → 0 ≤ u → c < probs.length →
      (chooseWeighted probs u = c
        ↔ partialSum probs c ≤ u ∧ u < partialSum probs (c + 1)) := by
  induction probs with
  | nil => intro u c _ _ hc; simp at hc
  | cons p ps ih =>
      intro u c hnn hu hc
      rw [chooseWeighted_cons]
      cases c with
      | zero =>
          rw [partialSum, partialSum, List.take_succ_cons, List.take_zero,
            List.sum_cons, List.sum_nil]
          constructor
          · intro h0
            by_cases h : u < p
            · exact ⟨hu, by simpa using h⟩
            · rw [if_neg h] at h0
              cases h0
          · rintro ⟨_, hup⟩
            rw [if_pos (by simpa using hup)]
      | succ c =>
          have hnps : ∀ q ∈ ps, 0 ≤ q := fun q hq => hnn q (List.mem_cons_of_mem p hq)
          by_cases h : u < p
          · rw [if_pos h]
            constructor
            · intro h0
              exact absurd h0 (by omega)
            · rintro ⟨hlow, _⟩
              exfalso
              have hps0 : 0 ≤ partialSum ps c := partialSum_nonneg ps hnps c
              rw [partialSum, List.take_succ_cons, List.sum_cons] at hlow
              rw [partialSum] at hps0
              linarith
          · rw [if_neg h]
            have hups : 0 ≤ u - p := by linarith [not_lt.mp h]
            have hcps : c < ps.length := by simpa using hc
            have hiff := ih (u - p) c hnps hups hcps
            rw [partialSum, List.take_succ_cons, List.sum_cons, partialSum,
              List.take_succ_cons, List.sum_cons]
            constructor
            · intro heq
              have hc2 : chooseWeighted ps (u - p) = c := by omega
              rcases hiff.mp hc2 with ⟨h1, h2⟩
              rw [partialSum] at h1 h2
              constructor <;> linarith
            · rintro ⟨h1, h2⟩
              have hc2 : chooseWeighted ps (u - p) = c := by
                apply hiff.mpr
                rw [partialSum, partialSum]
                constructor <;> linarith
              omega

lemma chooseWeighted_lt_length (probs : List ℚ) :
    ∀ (u : ℚ), (∀ p ∈ probs, 0 ≤ p) → 0 ≤ u → u < probs.sum →
      chooseWeighted probs u < probs.length := by
  induction probs with
  | nil =>
      intro u _ hu hlt
      rw [List.sum_nil] at hlt
      linarith
  | cons p ps ih =>
      intro u hnn hu hlt
      rw [chooseWeighted_cons]
      by_cases h : u < p
      · rw [if_pos h]
        simp
      · rw [if_neg h]
        have hrec := ih (u - p) (fun q hq => hnn q (List.mem_cons_of_mem p hq))
          (by linarith [not_lt.mp h]) (by rw [List.sum_cons] at hlt; linarith)
        simpa using hrec

lemma sum_map_div_nat (l : List Nat) (q : ℚ) :
    (l.map (fun x : Nat => (x : ℚ) / q)).sum = ((l.sum : Nat) : ℚ) / q := by
  induction l with
  | nil => simp
  | cons x xs ih =>
      rw [List.map_cons, List.sum_cons, ih, List.sum_cons]
      push_cast
      ring

lemma sum_set_incr (init : List Nat) :
    ∀ (i : Nat), i < init.length →
      (init.set i (init.getD i 0 + 1)).sum = init.sum + 1 := by
  induction init with
  | nil => intro i h; simp at h
  | cons x xs ih =>
      intro i h
      cases i with
      | zero =>
          rw [List.set_cons_zero, List.getD_cons_zero, List.sum_cons, List.sum_cons]
          omega
      | succ i =>
          rw [List.set_cons_succ, List.getD_cons_succ, List.sum_cons, List.sum_cons,
            ih i (by simpa using h)]
          omega

lemma sum_foldl_incr (labels : List Nat) :
    ∀ (init : List Nat), (∀ l ∈ labels, l < init.length) →
      (labels.foldl (fun res l => res.set l (res.getD l 0 + 1)) init).sum
        = init.sum + labels.length := by
  induction labels with
  | nil => intro init _; simp
  | cons l0 rest ih =>
      intro init hl
      rw [List.foldl_cons]
      have hl0 := hl l0 (List.mem_cons_self l0 rest)
      rw [ih _ (fun l hm => by
          rw [List.length_set]
          exact hl l (List.mem_cons_of_mem l0 hm)),
        sum_set_incr init l0 hl0, List.length_cons]
      omega

lemma sum_labels_distribution (catalog : List (String × Nat)) (n : Nat)
    (hlab : ∀ fl ∈ catalog, fl.2 < n) :
    (labels_distribution catalog n).sum = catalog.length := by
  rw [labels_distribution, foldl_entries_eq_labels]
  have hlm : ∀ l ∈ catalog.map (fun fl => fl.2), l < (List.replicate n 0).length := by
    intro l hl
    rcases List.mem_map.mp hl with ⟨fl, hfl, rfl⟩
    simpa using hlab fl hfl
  rw [sum_foldl_incr (catalog.map (fun fl => fl.2)) (List.replicate n 0) hlm]
  simp

lemma foldl_incr_length (labels : List Nat) :
    ∀ (init : List Nat),
      (labels.foldl (fun res l => res.set l (res.getD l 0 + 1)) init).length
        = init.length := by
  induction labels with
  | nil => intro _; rfl
  | cons l0 rest ih =>
      intro init
      rw [List.foldl_cons, ih, List.length_set]

lemma labels_distribution_length (catalog : List (String × Nat)) (n : Nat) :
    (labels_distribution catalog n).length = n := by
  rw [labels_distribution, foldl_entries_eq_labels, foldl_incr_length]
  simp

lemma foldl_classify_getElem? (entries : List (String × Nat)) :
    ∀ (init : List (List String)) (c : Nat), c < init.length →
      (∀ fl ∈ entries, fl.2 < init.length) →
      (entries.foldl (fun acc fl => acc.set fl.2 (acc.getD fl.2 [] ++ [fl.1])) init)[c]?
        = some (init.getD c []
            ++ (entries.filter (fun fl => fl.2 == c)).map (fun fl => fl.1)) := by
  induction entries with
  | nil =>
      intro init c hc _
      simp [List.getElem?_eq_getElem hc, List.getD_eq_getElem?_getD]
  | cons fl rest ih =>
      intro init c hc hl
      rw [List.foldl_cons]
      have hfl2 : fl.2 < init.length := hl fl (List.mem_cons_self fl rest)
      have hrec := ih (init.set fl.2 (init.getD fl.2 [] ++ [fl.1])) c
        (by rw [List.length_set]; exact hc)
        (fun x hm => by
          rw [List.length_set]
          exact hl x (List.mem_cons_of_mem fl hm))
      rw [hrec, List.filter_cons]
      by_cases h0 : (fl.2 == c) = true
      · have he : fl.2 = c := by simpa using h0
        subst he
        rw [getD_set_self init fl.2 _ [] hfl2, if_pos h0, List.map_cons]
        simp [List.append_assoc]
      · rw [getD_set_ne init fl.2 c _ [] (by simpa using h0), if_neg h0]

lemma filenames_by_classes_getElem? (catalog : List (String × Nat))
    (label_dist : List Nat) (rate : List ℚ) (c : Nat) (hc : c < rate.length)
    (hlab : ∀ fl ∈ catalog, fl.2 < rate.length) :
    (underInit catalog label_dist rate).filenames_by_classes[c]?
      = some (classFilenames catalog c) := by
  have hmain := foldl_classify_getElem? catalog
    (List.replicate rate.length ([] : List String)) c
    (by simpa using hc) (by simpa using hlab)
  show (catalog.foldl (fun acc fl => acc.set fl.2 (acc.getD fl.2 [] ++ [fl.1]))
      (List.replicate rate.length ([] : List String)))[c]? = _
  rw [hmain]
  have hz : (List.replicate rate.length ([] : List String)).getD c [] = [] := by
    simp [List.getD_eq_getElem?_getD, List.getElem?_replicate, hc]
  rw [hz, List.nil_append, classFilenames]

lemma norm_label_dist_getElem? (catalog : List (String × Nat))
    (label_dist : List Nat) (rate : List ℚ) (c : Nat)
    (hc : c < label_dist.length) :
    (underInit catalog label_dist rate).norm_label_dist[c]?
      = some ((label_dist.getD c 0 : ℚ) / ((label_dist.sum : Nat) : ℚ)) := by
  show (label_dist.map (fun x : Nat => (x : ℚ) / ((label_dist.sum : ℚ))))[c]? = _
  rw [List.getElem?_map, List.getElem?_eq_getElem hc, List.getD_eq_getElem?_getD,
    List.getElem?_eq_getElem hc]
  rfl

lemma norm_label_dist_length (catalog : List (String × Nat))
    (label_dist : List Nat) (rate : List ℚ) :
    (underInit catalog label_dist rate).norm_label_dist.length
      = label_dist.length := by
  show (label_dist.map (fun x : Nat => (x : ℚ) / ((label_dist.sum : ℚ)))).length = _
  rw [List.length_map]

/-! ## Claims about the under-sampling view -/

/-- Claim C8: the under-sampling `__getitem__` ignores its index argument
entirely: at the same randomness (class draw `u`, filename draw `k`),
two calls with different indices perform identical draws and return the
same result. -/
theorem undersampling_get_ignores_index (st : UnderState) (i j : Nat)
    (u : ℚ) (k : Nat) :
    under_getitem st i u k = under_getitem st j u k := rfl

/-- Claim C3: the under-sampling view's reported length is the sum over
classes of `round(rate[c] * original_count[c])` (Python banker's
rounding), and `labels_distribution()` returns exactly the precomputed
per-class target-count array; for original counts `[2, 1]` and rate
`[0.5, 1.0]` the target counts are `[1, 1]` and the length is 2. -/
theorem undersampling_length_formula (catalog : List (String × Nat))
    (label_dist : List Nat) (under_sampling_rate : List ℚ)
    (h : under_sampling_rate.length = label_dist.length) :
    (underInit catalog label_dist under_sampling_rate).data_len
      = ((List.range under_sampling_rate.length).map
          (fun c => pyRound (under_sampling_rate.getD c 0
            * (label_dist.getD c 0 : ℚ)))).sum
    ∧ under_labels_distribution (underInit catalog label_dist under_sampling_rate)
        = (underInit catalog label_dist under_sampling_rate).sampled_label_dist
    ∧ (underInit catalog [2, 1] [1/2, 1]).sampled_label_dist = [1, 1]
    ∧ (underInit catalog [2, 1] [1/2, 1]).data_len = 2 := by
  refine ⟨?_, rfl, ?_, ?_⟩
  · show ((under_sampling_rate.zip label_dist).map
        (fun xy => pyRound (xy.1 * (xy.2 : ℚ)))).sum = _
    exact zip_map_pyRound_sum under_sampling_rate label_dist h
  · show (([(1 : ℚ)/2, 1].zip [2, 1]).map
        (fun xy => pyRound (xy.1 * (xy.2 : ℚ)))) = [1, 1]
    norm_num [pyRound]
  · show ((([(1 : ℚ)/2, 1].zip [2, 1]).map
        (fun xy => pyRound (xy.1 * (xy.2 : ℚ)))).sum) = 2
    norm_num [pyRound]

/-- Witness for C3: the spec's concrete counts and rate. -/
theorem undersampling_length_formula_witness :
    ([(1 : ℚ)/2, 1] : List ℚ).length = ([2, 1] : List Nat).length
    ∧ (underInit sampleCatalog [2, 1] [1/2, 1]).data_len
        = ((List.range ([(1 : ℚ)/2, 1] : List ℚ).length).map
            (fun c => pyRound (([(1 : ℚ)/2, 1] : List ℚ).getD c 0
              * (([2, 1] : List Nat).getD c 0 : ℚ)))).sum
    ∧ (underInit sampleCatalog [2, 1] [1/2, 1]).sampled_label_dist = [1, 1]
    ∧ (underInit sampleCatalog [2, 1] [1/2, 1]).data_len = 2 :=
  ⟨rfl,
    (undersampling_length_formula sampleCatalog [2, 1] [1/2, 1] rfl).1,
    (undersampling_length_formula sampleCatalog [2, 1] [1/2, 1] rfl).2.2.1,
    (undersampling_length_formula sampleCatalog [2, 1] [1/2, 1] rfl).2.2.2⟩

lemma apply_under_sampling_def (catalog : List (String × Nat)) (rate : List ℚ) :
    apply_under_sampling catalog rate
      = underInit catalog (labels_distribution catalog rate.length) rate := rfl

lemma norm_label_dist_def (catalog : List (String × Nat)) (label_dist : List Nat)
    (rate : List ℚ) :
    (underInit catalog label_dist rate).norm_label_dist
      = label_dist.map (fun x : Nat => (x : ℚ) / ((label_dist.sum : ℚ))) := rfl

lemma annotation_dict_eq (catalog : List (String × Nat)) (label_dist : List Nat)
    (rate : List ℚ) :
    (underInit catalog label_dist rate).annotation_dict = catalog := rfl

lemma under_getitem_eq (st : UnderState) (idx : Nat) (u : ℚ) (k : Nat) :
    under_getitem st idx u k
      = (st.filenames_by_classes[chooseWeighted st.norm_label_dist u]?).bind
          (fun filenames => (filenames[k]?).bind
            (fun filename => (dictGet st.annotation_dict filename).map
              (fun l => (filename, l)))) := by
  rw [under_getitem]
  cases h1 : st.filenames_by_classes[chooseWeighted st.norm_label_dist u]? with
  | none => rfl
  | some filenames =>
      simp only [Option.some_bind]
      cases h2 : filenames[k]? with
      | none => rfl
      | some filename =>
          simp only [Option.some_bind]
          cases h3 : dictGet st.annotation_dict filename with
          | none => rfl
          | some l => rfl

/-- Claim C2: each under-sampling `get` call draws its class from the
normalised ORIGINAL class distribution — the probability list entry of
class `c` is exactly `original_count[c] / Σ original_count`, and the
uniform draws `u` that select class `c` are exactly the cumulative
interval of that width — then draws a filename uniformly (by a uniform
index) from the list of all catalog filenames labelled `c`, and
re-looks-up that filename's label in the catalog before loading the
image. -/
theorem undersampling_get_behavior (catalog : List (String × Nat))
    (under_sampling_rate : List ℚ) (u : ℚ) (k idx : Nat)
    (st : UnderState) (c : Nat)
    (hst : st = apply_under_sampling catalog under_sampling_rate)
    (hcd : c = drawnClass st u)
    (hne : catalog ≠ [])
    (hlab : ∀ fl ∈ catalog, fl.2 < under_sampling_rate.length)
    (hu0 : 0 ≤ u) (hu1 : u < 1) :
    (∀ c2, c2 < under_sampling_rate.length →
      st.norm_label_dist[c2]?
        = some ((catalog.countP (fun fl => fl.2 == c2) : ℚ) / (catalog.length : ℚ)))
    ∧ (∀ c2, c2 < under_sampling_rate.length →
      (drawnClass st u = c2
        ↔ partialSum st.norm_label_dist c2 ≤ u
          ∧ u < partialSum st.norm_label_dist c2
            + (catalog.countP (fun fl => fl.2 == c2) : ℚ) / (catalog.length : ℚ)))
    ∧ c < under_sampling_rate.length
    ∧ st.filenames_by_classes[c]? = some (classFilenames catalog c)
    ∧ (k < (classFilenames catalog c).length →
        under_getitem st idx u k
          = ((classFilenames catalog c)[k]?).bind
            (fun f => (dictGet catalog f).map (fun l => (f, l))))
    ∧ ((catalog.map (fun fl => fl.1)).Nodup →
        k < (classFilenames catalog c).length →
        under_getitem st idx u k
          = ((classFilenames catalog c)[k]?).map (fun f => (f, c))) := by
  subst hcd
  subst hst
  rw [apply_under_sampling_def]
  set n := under_sampling_rate.length with hn
  set D := labels_distribution catalog n with hD
  have hd_len : D.length = n := labels_distribution_length catalog n
  have hd_sum : D.sum = catalog.length := sum_labels_distribution catalog n hlab
  have hpos : 0 < catalog.length := List.length_pos.mpr hne
  have hsum_ne : ((D.sum : ℚ)) ≠ 0 := by
    rw [hd_sum]
    exact Nat.cast_ne_zero.mpr (Nat.pos_iff_ne_zero.mp hpos)
  have hgetD : ∀ c2, c2 < n → D.getD c2 0 = catalog.countP (fun fl => fl.2 == c2) := by
    intro c2 hc2
    rw [hD, List.getD_eq_getElem?_getD,
      labels_distribution_getElem? catalog n c2 hc2 hlab]
    rfl
  have hnorm : ∀ c2, c2 < n →
      (underInit catalog D under_sampling_rate).norm_label_dist[c2]?
        = some ((catalog.countP (fun fl => fl.2 == c2) : ℚ) / (catalog.length : ℚ)) := by
    intro c2 hc2
    rw [norm_label_dist_getElem? catalog D under_sampling_rate c2
        (by rw [hd_len]; exact hc2),
      hgetD c2 hc2, hd_sum]
  have hnn : ∀ p ∈ (underInit catalog D under_sampling_rate).norm_label_dist, 0 ≤ p := by
    rw [norm_label_dist_def]
    intro p hp
    rcases List.mem_map.mp hp with ⟨x, _, rfl⟩
    positivity
  have hnsum : (underInit catalog D under_sampling_rate).norm_label_dist.sum = 1 := by
    rw [norm_label_dist_def, sum_map_div_nat, div_self hsum_ne]
  have hnlen : (underInit catalog D under_sampling_rate).norm_label_dist.length = n := by
    rw [norm_label_dist_length, hd_len]
  have hcn : chooseWeighted
      (underInit catalog D under_sampling_rate).norm_label_dist u < n := by
    have hlt := chooseWeighted_lt_length _ u hnn hu0 (by rw [hnsum]; exact hu1)
    rwa [hnlen] at hlt
  have h4 := filenames_by_classes_getElem? catalog D under_sampling_rate
    (chooseWeighted (underInit catalog D under_sampling_rate).norm_label_dist u)
    hcn hlab
  refine ⟨hnorm, ?_, hcn, h4, ?_, ?_⟩
  · intro c2 hc2
    have hiff := chooseWeighted_eq_iff _ u c2 hnn hu0 (by rw [hnlen]; exact hc2)
    have hps : partialSum
          (underInit catalog D under_sampling_rate).norm_label_dist (c2 + 1)
        = partialSum (underInit catalog D under_sampling_rate).norm_label_dist c2
          + (catalog.countP (fun fl => fl.2 == c2) : ℚ) / (catalog.length : ℚ) := by
      rw [partialSum_succ _ c2 (by rw [hnlen]; exact hc2),
        List.getD_eq_getElem?_getD, hnorm c2 hc2]
      rfl
    rw [drawnClass]
    rw [hps] at hiff
    exact hiff
  · intro _
    rw [drawnClass, under_getitem_eq, h4, Option.some_bind, annotation_dict_eq]
  · intro hnd hk
    rw [drawnClass] at hk ⊢
    rw [under_getitem_eq, h4, Option.some_bind, annotation_dict_eq,
      List.getElem?_eq_getElem hk, Option.some_bind, Option.map_some']
    have hfmem : (classFilenames catalog (chooseWeighted
          (underInit catalog D under_sampling_rate).norm_label_dist u))[k]
        ∈ (catalog.filter (fun fl => fl.2 == chooseWeighted
            (underInit catalog D under_sampling_rate).norm_label_dist u)).map
          (fun fl => fl.1) := by
      have hm := List.get_mem (classFilenames catalog (chooseWeighted
        (underInit catalog D under_sampling_rate).norm_label_dist u)) k hk
      rw [List.get_eq_getElem] at hm
      exact hm
    rcases List.mem_map.mp hfmem with ⟨fl, hfl_filter, hfe⟩
    have hfl_cat : fl ∈ catalog := (List.mem_filter.mp hfl_filter).1
    have hfl_c : fl.2 = chooseWeighted
        (underInit catalog D under_sampling_rate).norm_label_dist u := by
      have hb := (List.mem_filter.mp hfl_filter).2
      simpa using hb
    have hdg : dictGet catalog
        ((classFilenames catalog (chooseWeighted
          (underInit catalog D under_sampling_rate).norm_label_dist u))[k])
        = some (chooseWeighted
          (underInit catalog D under_sampling_rate).norm_label_dist u) := by
      rw [← hfe, dictGet_of_nodup catalog hnd fl hfl_cat, hfl_c]
    rw [hdg]
    rfl

/-- Witness for C2: the spec's concrete catalog with rate `[0.5, 1.0]` at
the uniform draws `u = 0`, `k = 0`. -/
theorem undersampling_get_behavior_witness :
    sampleCatalog ≠ []
    ∧ (∀ fl ∈ sampleCatalog, fl.2 < ([(1 : ℚ)/2, 1] : List ℚ).length)
    ∧ ((0 : ℚ) ≤ 0 ∧ (0 : ℚ) < 1)
    ∧ drawnClass (apply_under_sampling sampleCatalog [1/2, 1]) 0
        < ([(1 : ℚ)/2, 1] : List ℚ).length
    ∧ (apply_under_sampling sampleCatalog [1/2, 1]).filenames_by_classes[
        drawnClass (apply_under_sampling sampleCatalog [1/2, 1]) 0]?
        = some (classFilenames sampleCatalog
            (drawnClass (apply_under_sampling sampleCatalog [1/2, 1]) 0)) :=
  ⟨by decide, by decide, ⟨by norm_num, by norm_num⟩,
    (undersampling_get_behavior sampleCatalog [1/2, 1] 0 0 0
      (apply_under_sampling sampleCatalog [1/2, 1])
      (drawnClass (apply_under_sampling sampleCatalog [1/2, 1]) 0)
      rfl rfl (by decide) (by decide) (by norm_num) (by norm_num)).2.2.1,
    (undersampling_get_behavior sampleCatalog [1/2, 1] 0 0 0
      (apply_under_sampling sampleCatalog [1/2, 1])
      (drawnClass (apply_under_sampling sampleCatalog [1/2, 1]) 0)
      rfl rfl (by decide) (by decide) (by norm_num) (by norm_num)).2.2.2.1⟩
